import Mathlib

/-!
Verification development for the Evopedia archive read path
(`archive.js`, class `LocalArchive`).

The JavaScript source is shallowly embedded below: byte buffers become
`List ℕ`, strings become `String` or `List Char`, the asynchronous
callback structure is sequentialised (the spec fixes a single-threaded
cooperative scheduler), and fallible operations return `Option`.
Modules of the repository that are not part of the given sources
(`geometry`, `util`, `titleIterators`, the `Title` record) are modelled
from the spec; every such definition carries a doc comment saying so.
-/

namespace Evopedia

/-- Three-way lexicographic comparison of byte lists.  Modelled from the
spec: JavaScript compares the hex-encoded 16-byte hashes with the native
string order, which for equal-length lowercase-hex strings coincides with
byte-lexicographic order on the digests. -/
def listLex : List ℕ → List ℕ → Ordering
  | [], [] => Ordering.eq
  | [], _ :: _ => Ordering.lt
  | _ :: _, [] => Ordering.gt
  | a :: as, b :: bs =>
      if a < b then Ordering.lt
      else if b < a then Ordering.gt
      else listLex as bs

/-- Code points of a string, for lexicographic comparison. -/
def strBytes (s : String) : List ℕ := s.data.map Char.toNat

/-- Lexicographic order on strings.  Modelled from the spec: the title
index is sorted by the normalized name under the native string order. -/
def strLe (a b : String) : Bool := !(listLex (strBytes a) (strBytes b) == Ordering.gt)

/-- A geographic point, longitude first.  Modelled from the spec: the
`geometry` module is not among the given sources. -/
structure Point where
  x : ℚ
  y : ℚ
  deriving DecidableEq

/-- An axis-aligned rectangle stored as origin plus extents, which may be
negative before normalization.  Modelled from the spec. -/
structure Rect where
  x : ℚ
  y : ℚ
  w : ℚ
  h : ℚ
  deriving DecidableEq

/-- Rectangle normalization.  Modelled from the spec: if `width < 0`,
shift the origin east by `width` and negate, and likewise for the
height. -/
def Rect.normalized (r : Rect) : Rect :=
  { x := if r.w < 0 then r.x + r.w else r.x
    w := if r.w < 0 then -r.w else r.w
    y := if r.h < 0 then r.y + r.h else r.y
    h := if r.h < 0 then -r.h else r.h }

/-- Point containment, lower bound inclusive and upper bound exclusive.
Modelled from the spec. -/
def Rect.containsPoint (r : Rect) (p : Point) : Bool :=
  decide (r.x ≤ p.x) && decide (p.x < r.x + r.w) &&
  decide (r.y ≤ p.y) && decide (p.y < r.y + r.h)

/-- Rectangle intersection: the normalized boxes overlap in both axes.
Modelled from the spec. -/
def Rect.intersect (a b : Rect) : Bool :=
  decide (a.x < b.x + b.w) && decide (b.x < a.x + a.w) &&
  decide (a.y < b.y + b.h) && decide (b.y < a.y + a.h)

/-- Midpoint of a rectangle.  Modelled from the spec. -/
def Rect.center (r : Rect) : Point := ⟨r.x + r.w / 2, r.y + r.h / 2⟩

/-- South-west corner.  Modelled from the spec. -/
def Rect.sw (r : Rect) : Point := ⟨r.x, r.y⟩

/-- South-east corner.  Modelled from the spec. -/
def Rect.se (r : Rect) : Point := ⟨r.x + r.w, r.y⟩

/-- North-west corner.  Modelled from the spec. -/
def Rect.nw (r : Rect) : Point := ⟨r.x, r.y + r.h⟩

/-- North-east corner.  Modelled from the spec. -/
def Rect.ne (r : Rect) : Point := ⟨r.x + r.w, r.y + r.h⟩

/-- The two-point rectangle constructor `new geometry.rect(a, b)` used by
the quadtree descent: origin at the first point, extents reaching the
second.  Modelled from the spec (the descent splits `thisRect` at the
node's center into four quadrant rectangles). -/
def rectFromCorners (a b : Point) : Rect := ⟨a.x, a.y, b.x - a.x, b.y - a.y⟩

/-- Squared planar Euclidean distance on degrees.  Modelled from the
spec, which asks only for a monotonic-with-true-distance surrogate
sufficient for sort ordering; the squared distance induces exactly the
same order as the planar distance. -/
def distance (a b : Point) : ℚ :=
  (a.x - b.x) * (a.x - b.x) + (a.y - b.y) * (a.y - b.y)

/-- The sentinel rectangle for the whole earth (`GLOBE_RECTANGLE` in
`archive.js`). -/
def GLOBE_RECTANGLE : Rect := ⟨-181, -91, 362, 182⟩

/-- A title record, as produced by the title iterator.  The `Title`
record type lives in the `title` module, which is not among the given
sources; the fields are modelled from the spec, including the redirect
marker flag. -/
structure Title where
  name : String
  redirect : Bool
  fileNr : ℕ
  blockStart : ℕ
  blockOffset : ℕ
  articleLength : ℕ
  titleOffset : ℕ
  geolocation : Option Point
  deriving DecidableEq

/-- Offset of the first record whose normalized name is `≥` the
normalized query.  Modelled from the spec: `titleIterators.findPrefixOffset`
is not among the given sources; the spec states it returns the offset of
the first record whose normalized name is `≥` the prefix, or the file
size when there is none (here: the list length). -/
def findPrefixOffset (normalize : String → String) (titles : List Title) (name : String) : ℕ :=
  titles.findIdx (fun t => strLe (normalize name) (normalize t.name))

/-- The `check` loop of `LocalArchive.prototype.getTitleByName`: stop
with `null` when the iterator is exhausted or the normalized on-disk
name no longer equals the normalized query; return the current title
when its raw name equals the query; otherwise advance. -/
def getTitleByNameLoop (normalize : String → String) (nq q : String) : List Title → Option Title
  | [] => none
  | t :: rest =>
      if normalize t.name ≠ nq then none
      else if t.name = q then some t
      else getTitleByNameLoop normalize nq q rest

/-- `LocalArchive.prototype.getTitleByName`: seek with `findPrefixOffset`
and run the `check` loop from there.  The title file is embedded as the
list of its parsed records in on-disk order. -/
def getTitleByName (normalize : String → String) (titles : List Title) (q : String) : Option Title :=
  getTitleByNameLoop normalize (normalize q) q (titles.drop (findPrefixOffset normalize titles q))

/-- Characters admissible in a metadata value: the capture group of the
pattern is `[^ \n]+`. -/
def tokenChar (c : Char) : Bool := decide (c ≠ ' ') && decide (c ≠ '\n')

/-- Attempt to match `key ?\= ?([^ \n]+)` at the head of `l`, which in
`readMetadataFile`'s patterns is the text immediately following a
newline.  Returns the captured value on success. -/
def matchKeyAt (l : List Char) (key : List Char) : Option (List Char) :=
  if key.isPrefixOf l then
    let r1 := l.drop key.length
    let r2 := if r1.head? = some ' ' then r1.tail else r1
    match r2 with
    | '=' :: r3 =>
        let r4 := if r3.head? = some ' ' then r3.tail else r3
        let tok := r4.takeWhile tokenChar
        if tok = [] then none else some tok
    | _ => none
  else none

/-- Scan the metadata text for the first match of the pattern
`\nkey ?\= ?([^ \n]+)`: only occurrences of `key` that are preceded by a
newline are candidates. -/
def findKey : List Char → List Char → Option (List Char)
  | [], _ => none
  | c :: rest, key =>
      if c = '\n' then
        match matchKeyAt rest key with
        | some tok => some tok
        | none => findKey rest key
      else findKey rest key

/-- The metadata values populated by `readMetadataFile`. -/
structure Metadata where
  language : List Char
  date : List Char
  normalizedTitles : Bool
  deriving DecidableEq

/-- `LocalArchive.prototype.readMetadataFile`: the `language` and `date`
patterns are dereferenced unconditionally (a missing match makes the
handler throw, embedded as `none`); `normalized_titles` is optional, its
value `"0"` giving `false` and any other value or absence `true`. -/
def readMetadataFile (s : List Char) : Option Metadata :=
  match findKey s "language".data with
  | none => none
  | some lang =>
      match findKey s "date".data with
      | none => none
      | some date =>
          let nt :=
            match findKey s "normalized_titles".data with
            | some tok => if tok = "0".data then false else true
            | none => true
          some ⟨lang, date, nt⟩

/-- The `result` branch of `LocalArchive.prototype.readArticleChunk`:
from the decompressed block, take
`substring(blockOffset, blockOffset + articleLength)`; if that slice is
at least `articleLength` long, keep its first `articleLength` characters
and deliver, otherwise re-read with a larger `readLength` (embedded as
`none`).  The decompressed block is embedded as the list of its bytes in
the storage encoding. -/
def processBzip2Result (decompressed : List ℕ) (blockOffset articleLength : ℕ) :
    Option (List ℕ) :=
  let htmlArticle := (decompressed.take (blockOffset + articleLength)).drop blockOffset
  if articleLength ≤ htmlArticle.length then some (htmlArticle.take articleLength) else none

/-- Little-endian 32-bit decode at index `i`.  Modelled from the spec:
`util.readIntegerFrom4Bytes` is not among the given sources; the spec
fixes u32 little-endian. -/
def u32le (b : List ℕ) (i : ℕ) : ℕ :=
  b.getD i 0 + 256 * b.getD (i + 1) 0 + 65536 * b.getD (i + 2) 0 +
    16777216 * b.getD (i + 3) 0

/-- `LocalArchive.prototype.resolveRedirect`: slice the 16 bytes of the
title file starting at `title.blockStart`; an empty slice is the error
path (`none`); otherwise rewrite `fileNr` from byte `[2]`, `blockStart`
from the u32 at `[3]`, `blockOffset` from the u32 at `[7]` and
`articleLength` from the u32 at `[11]`, leaving every other field of the
title unchanged. -/
def resolveRedirect (titleFile : List ℕ) (t : Title) : Option Title :=
  let bytes := (titleFile.drop t.blockStart).take 16
  if bytes.length = 0 then none
  else
    some { t with
      fileNr := bytes.getD 2 0
      blockStart := u32le bytes 3
      blockOffset := u32le bytes 7
      articleLength := u32le bytes 11 }

/-- One 24-byte record of the math index: a 16-byte hash followed by a
u32 position and a u32 length.  The index file is embedded as the list
of its parsed records. -/
structure MathRec where
  hash : List ℕ
  pos : ℕ
  len : ℕ
  deriving DecidableEq

/-- `LocalArchive.prototype.findMathDataPosition`: binary search over the
records.  `lo ≥ hi` is the not-found path (`none`); the record at
`mid = ⌊(lo + hi) / 2⌋` is compared with the query hash, equality
delivering its `(pos, len)` pair, a smaller query narrowing to
`[lo, mid)` and a larger one to `[mid + 1, hi)`. -/
def findMathDataPosition (recs : List MathRec) (q : List ℕ) (lo hi : ℕ) :
    Option (ℕ × ℕ) :=
  if _h : hi ≤ lo then none
  else
    let mid := (lo + hi) / 2
    let r := recs.getD mid ⟨[], 0, 0⟩
    match listLex q r.hash with
    | Ordering.eq => some (r.pos, r.len)
    | Ordering.lt => findMathDataPosition recs q lo mid
    | Ordering.gt => findMathDataPosition recs q (mid + 1) hi
termination_by hi - lo
decreasing_by
  all_goals omega

/-- `LocalArchive.prototype.loadMathImage`: search with `lo = 0` and
`hi = fileSize / 24` (the record count) and, on success, slice
`mathData[pos .. pos + len)`. -/
def loadMathImage (recs : List MathRec) (mathData : List ℕ) (q : List ℕ) :
    Option (List ℕ) :=
  (findMathDataPosition recs q 0 recs.length).map
    (fun pl => (mathData.drop pl.1).take pl.2)

/-- A title position collected by the spatial search: the offset of the
title in the title file together with the geolocation found in the
coordinate file. -/
structure TitlePos where
  titleOffset : ℕ
  geolocation : Point
  deriving DecidableEq

/-- A coordinate shard in parsed form.  On disk a node starts with a u16
selector, `0xFFFF` marking an inner node (center plus the three child
lengths locating the SW, SE, NW, NE children) and any other value a leaf
with `selector` entries of coordinates plus title offset; the tree below
is that structure with the byte layout already decoded. -/
inductive QTree where
  | leaf (entries : List (Point × ℕ))
  | inner (center : Point) (sw se nw ne : QTree)

/-- One iteration of the leaf loop of `LocalArchive.getTitlesInCoordsInt`:
skip the entry when its coordinates are outside the target rectangle,
and push it onto the shared buffer only when `maxTitles >= 0` and the
buffer is still shorter than `maxTitles`. -/
def leafStep (target : Rect) (maxT : ℤ) (acc : List TitlePos) (e : Point × ℕ) :
    List TitlePos :=
  if target.containsPoint e.1 then
    if maxT ≥ 0 ∧ (acc.length : ℤ) < maxT then acc ++ [⟨e.2, e.1⟩] else acc
  else acc

/-- `LocalArchive.getTitlesInCoordsInt`, sequentialised along the
cooperative depth-first schedule: on load the pending counter is
decremented; if `maxTitles >= 0` and enough titles were already found
the descent stops; a leaf runs the entry loop; an inner node splits
`thisRect` at its center and descends, in source order SW, SE, NW, NE,
into each child whose quadrant intersects the target rectangle,
incrementing the counter per descent.  Returns the results buffer and
the counter. -/
def getTitlesInCoordsInt (target : Rect) (maxT : ℤ) (t : QTree) (thisRect : Rect)
    (found : List TitlePos) (c : ℕ) : List TitlePos × ℕ :=
  let c1 := c - 1
  if maxT ≥ 0 ∧ (found.length : ℤ) ≥ maxT then (found, c1)
  else
    match t with
    | QTree.leaf entries => (entries.foldl (leafStep target maxT) found, c1)
    | QTree.inner center tsw tse tnw tne =>
        let rSW := (rectFromCorners thisRect.sw center).normalized
        let rNE := (rectFromCorners thisRect.ne center).normalized
        let rSE := (rectFromCorners thisRect.se center).normalized
        let rNW := (rectFromCorners thisRect.nw center).normalized
        let s0 := if target.intersect rSW then
          getTitlesInCoordsInt target maxT tsw rSW found (c1 + 1) else (found, c1)
        let s1 := if target.intersect rSE then
          getTitlesInCoordsInt target maxT tse rSE s0.1 (s0.2 + 1) else s0
        let s2 := if target.intersect rNW then
          getTitlesInCoordsInt target maxT tnw rNW s1.1 (s1.2 + 1) else s1
        let s3 := if target.intersect rNE then
          getTitlesInCoordsInt target maxT tne rNE s2.1 (s2.2 + 1) else s2
        s3

/-- Ordered insertion by distance from `c`. -/
def insertByDist (c : Point) (e : TitlePos) : List TitlePos → List TitlePos
  | [] => [e]
  | f :: rest =>
      if distance c e.geolocation ≤ distance c f.geolocation then e :: f :: rest
      else f :: insertByDist c e rest

/-- The delivery sort of `readTitlesFromTitleCoordsInTitleFile`: the
collected titles are sorted with the comparator
`distance(center, a) - distance(center, b)`, i.e. ascending by distance
from the center; `Array.prototype.sort` is embedded as a sort producing a
permutation ordered by that comparator. -/
def sortByDistance (c : Point) (l : List TitlePos) : List TitlePos :=
  l.foldr (insertByDist c) []

/-- `LocalArchive.prototype.getTitlesInCoords` together with its
completion callback, sequentialised: a call while the global pending
counter is nonzero shows the retry alert (third component `true`),
resets the counter to `0` and starts no descent; otherwise the counter
is incremented once per coordinate file before any read completes, each
file's quadtree is descended from the root against the whole-earth
rectangle, and when the counter reaches zero the collected positions are
delivered sorted by distance from the center of the normalized
rectangle.  With no coordinate file no descent starts, so the completion
callback never runs (`none`). -/
def getTitlesInCoords (c0 : ℕ) (files : List QTree) (r : Rect) (maxT : ℤ) :
    Option (List TitlePos) × ℕ × Bool :=
  if 0 < c0 then (none, 0, true)
  else
    let target := r.normalized
    let s := files.foldl
      (fun s t => getTitlesInCoordsInt target maxT t GLOBE_RECTANGLE s.1 s.2)
      ([], files.length)
    if files.length = 0 then (none, s.2, false)
    else (some (sortByDistance target.center s.1), s.2, false)

/-! Helper lemmas. -/

theorem getD_slice16 (f : List ℕ) (bs i : ℕ) (hi : i < 16) :
    ((f.drop bs).take 16).getD i 0 = f.getD (bs + i) 0 := by
  rw [List.getD_eq_getElem?_getD, List.getD_eq_getElem?_getD, List.getElem?_take,
    if_pos hi, List.getElem?_drop]

theorem u32le_slice16 (f : List ℕ) (bs i : ℕ) (hi : i + 3 < 16) :
    u32le ((f.drop bs).take 16) i = u32le f (bs + i) := by
  have e1 : bs + (i + 1) = bs + i + 1 := by omega
  have e2 : bs + (i + 2) = bs + i + 2 := by omega
  have e3 : bs + (i + 3) = bs + i + 3 := by omega
  unfold u32le
  rw [getD_slice16 f bs i (by omega), getD_slice16 f bs (i + 1) (by omega),
    getD_slice16 f bs (i + 2) (by omega), getD_slice16 f bs (i + 3) (by omega), e1, e2, e3]

theorem resolveRedirect_eq_some (f : List ℕ) (t : Title)
    (h : t.blockStart + 16 ≤ f.length) :
    resolveRedirect f t = some { t with
      fileNr := ((f.drop t.blockStart).take 16).getD 2 0
      blockStart := u32le ((f.drop t.blockStart).take 16) 3
      blockOffset := u32le ((f.drop t.blockStart).take 16) 7
      articleLength := u32le ((f.drop t.blockStart).take 16) 11 } := by
  have hlen : ((f.drop t.blockStart).take 16).length = 16 := by
    simp only [List.length_take, List.length_drop]
    omega
  simp only [resolveRedirect, hlen]
  norm_num

/-- C4: for every title whose data shard is present and whose block
decompresses to at least `blockOffset + articleLength` bytes,
`readArticle` delivers a string of exactly `articleLength` characters
measured in the storage encoding: the slice taken by `readArticleChunk`
before the UTF-8 decoding step has exactly `articleLength` characters. -/
theorem c4_readArticleChunk_length (d : List ℕ) (off len : ℕ) (h : off + len ≤ d.length) :
    ∃ s, processBzip2Result d off len = some s ∧ s.length = len := by
  have hl : ((d.take (off + len)).drop off).length = len := by
    simp only [List.length_drop, List.length_take]
    omega
  refine ⟨((d.take (off + len)).drop off).take len, ?_, ?_⟩
  · simp only [processBzip2Result, hl, le_refl, if_pos]
  · rw [List.length_take, hl]
    omega

/-- Witness for C4 at a concrete input: a 10-byte decompressed block,
`blockOffset = 2` and `articleLength = 3`. -/
theorem c4_readArticleChunk_length_witness :
    2 + 3 ≤ ([0, 1, 2, 3, 4, 5, 6, 7, 8, 9] : List ℕ).length ∧
    ∃ s, processBzip2Result [0, 1, 2, 3, 4, 5, 6, 7, 8, 9] 2 3 = some s ∧ s.length = 3 :=
  ⟨by decide, c4_readArticleChunk_length [0, 1, 2, 3, 4, 5, 6, 7, 8, 9] 2 3 (by decide)⟩

/-- C6: when the 16 bytes at `t.blockStart` of the title file are
available, `resolveRedirect(t)` succeeds, rewriting exactly the four
pointer fields — `fileNr` from byte `[2]`, `blockStart` from the u32 LE
at `[3..=6]`, `blockOffset` from the u32 LE at `[7..=10]`,
`articleLength` from the u32 LE at `[11..=14]` — and leaving the name,
geolocation, titleOffset and redirect flag of the same title
unchanged. -/
theorem c6_resolveRedirect_fields (f : List ℕ) (t : Title)
    (h : t.blockStart + 16 ≤ f.length) :
    ∃ t', resolveRedirect f t = some t' ∧
      t'.fileNr = f.getD (t.blockStart + 2) 0 ∧
      t'.blockStart = u32le f (t.blockStart + 3) ∧
      t'.blockOffset = u32le f (t.blockStart + 7) ∧
      t'.articleLength = u32le f (t.blockStart + 11) ∧
      t'.name = t.name ∧ t'.geolocation = t.geolocation ∧
      t'.titleOffset = t.titleOffset ∧ t'.redirect = t.redirect := by
  refine ⟨_, resolveRedirect_eq_some f t h, ?_, ?_, ?_, ?_, rfl, rfl, rfl, rfl⟩
  · exact getD_slice16 f t.blockStart 2 (by omega)
  · exact u32le_slice16 f t.blockStart 3 (by omega)
  · exact u32le_slice16 f t.blockStart 7 (by omega)
  · exact u32le_slice16 f t.blockStart 11 (by omega)

set_option maxRecDepth 4000 in
/-- Witness for C6 at the spec's concrete redirect scenario: a title file
whose 16 bytes at offset 200 encode the target
`(fileNr = 3, blockStart = 1000, blockOffset = 42, articleLength = 7)`. -/
theorem c6_resolveRedirect_fields_witness :
    (Title.mk "x" true 1 200 5 6 0 none).blockStart + 16 ≤
      (List.replicate 200 0 ++
        [0, 0, 3, 232, 3, 0, 0, 42, 0, 0, 0, 7, 0, 0, 0, 9] : List ℕ).length ∧
    ∃ t', resolveRedirect
        (List.replicate 200 0 ++ [0, 0, 3, 232, 3, 0, 0, 42, 0, 0, 0, 7, 0, 0, 0, 9])
        (Title.mk "x" true 1 200 5 6 0 none) = some t' ∧
      t'.fileNr = (List.replicate 200 0 ++
        [0, 0, 3, 232, 3, 0, 0, 42, 0, 0, 0, 7, 0, 0, 0, 9] : List ℕ).getD
          ((Title.mk "x" true 1 200 5 6 0 none).blockStart + 2) 0 ∧
      t'.blockStart = u32le
        (List.replicate 200 0 ++ [0, 0, 3, 232, 3, 0, 0, 42, 0, 0, 0, 7, 0, 0, 0, 9])
        ((Title.mk "x" true 1 200 5 6 0 none).blockStart + 3) ∧
      t'.blockOffset = u32le
        (List.replicate 200 0 ++ [0, 0, 3, 232, 3, 0, 0, 42, 0, 0, 0, 7, 0, 0, 0, 9])
        ((Title.mk "x" true 1 200 5 6 0 none).blockStart + 7) ∧
      t'.articleLength = u32le
        (List.replicate 200 0 ++ [0, 0, 3, 232, 3, 0, 0, 42, 0, 0, 0, 7, 0, 0, 0, 9])
        ((Title.mk "x" true 1 200 5 6 0 none).blockStart + 11) ∧
      t'.name = (Title.mk "x" true 1 200 5 6 0 none).name ∧
      t'.geolocation = (Title.mk "x" true 1 200 5 6 0 none).geolocation ∧
      t'.titleOffset = (Title.mk "x" true 1 200 5 6 0 none).titleOffset ∧
      t'.redirect = (Title.mk "x" true 1 200 5 6 0 none).redirect :=
  ⟨by decide,
    c6_resolveRedirect_fields
      (List.replicate 200 0 ++ [0, 0, 3, 232, 3, 0, 0, 42, 0, 0, 0, 7, 0, 0, 0, 9])
      (Title.mk "x" true 1 200 5 6 0 none) (by decide)⟩

/-- C7 counterexample: a title that is not a redirect, whose block
pointers are nevertheless clobbered by two applications of
`resolveRedirect` — the function rewrites the four fields
unconditionally, so double application is not a no-op for non-redirect
titles.  The original fields are `(1, 0, 2, 3)`; after two resolutions
they are `(0, 0, 0, 0)`. -/
theorem c7_counterexample :
    (Title.mk "a" false 1 0 2 3 0 none).redirect = false ∧
    ((resolveRedirect ([0, 0, 5, 16, 0, 0, 0, 9, 0, 0, 0, 4, 0, 0, 0, 0] ++ List.replicate 16 0)
          (Title.mk "a" false 1 0 2 3 0 none)).bind
        (resolveRedirect
          ([0, 0, 5, 16, 0, 0, 0, 9, 0, 0, 0, 4, 0, 0, 0, 0] ++ List.replicate 16 0))).map
        (fun t => (t.fileNr, t.blockStart, t.blockOffset, t.articleLength))
      = some (0, 0, 0, 0) ∧
    ((Title.mk "a" false 1 0 2 3 0 none).fileNr,
      (Title.mk "a" false 1 0 2 3 0 none).blockStart,
      (Title.mk "a" false 1 0 2 3 0 none).blockOffset,
      (Title.mk "a" false 1 0 2 3 0 none).articleLength) = (1, 0, 2, 3) := by
  decide

/-- C7 amended: `resolveRedirect` rewrites the four pointer fields
unconditionally, whether or not the title is a redirect; applying it
twice is a no-op exactly when the bytes read reproduce the title's
fields.  In particular, when the 16-byte record at `t.blockStart`
re-encodes `t`'s own current `(fileNr, blockStart, blockOffset,
articleLength)`, one application — and hence also two — returns the
title unchanged. -/
theorem c7_resolveRedirect_selfEncoding (f : List ℕ) (t : Title)
    (h : t.blockStart + 16 ≤ f.length)
    (h2 : ((f.drop t.blockStart).take 16).getD 2 0 = t.fileNr)
    (h3 : u32le ((f.drop t.blockStart).take 16) 3 = t.blockStart)
    (h7 : u32le ((f.drop t.blockStart).take 16) 7 = t.blockOffset)
    (h11 : u32le ((f.drop t.blockStart).take 16) 11 = t.articleLength) :
    resolveRedirect f t = some t ∧
      (resolveRedirect f t).bind (resolveRedirect f) = some t := by
  have h1 := resolveRedirect_eq_some f t h
  rw [h2, h3, h7, h11] at h1
  have h1t : resolveRedirect f t = some t := h1
  refine ⟨h1t, ?_⟩
  rw [h1t, Option.some_bind]
  exact h1t

/-- Witness for C7's amended statement: a 16-byte record at offset 0
that re-encodes the title's own fields `(5, 0, 9, 4)`. -/
theorem c7_resolveRedirect_selfEncoding_witness :
    (Title.mk "s" false 5 0 9 4 0 none).blockStart + 16 ≤
        ([0, 0, 5, 0, 0, 0, 0, 9, 0, 0, 0, 4, 0, 0, 0, 0] : List ℕ).length ∧
    resolveRedirect [0, 0, 5, 0, 0, 0, 0, 9, 0, 0, 0, 4, 0, 0, 0, 0]
        (Title.mk "s" false 5 0 9 4 0 none) = some (Title.mk "s" false 5 0 9 4 0 none) ∧
    (resolveRedirect [0, 0, 5, 0, 0, 0, 0, 9, 0, 0, 0, 4, 0, 0, 0, 0]
          (Title.mk "s" false 5 0 9 4 0 none)).bind
        (resolveRedirect [0, 0, 5, 0, 0, 0, 0, 9, 0, 0, 0, 4, 0, 0, 0, 0])
      = some (Title.mk "s" false 5 0 9 4 0 none) :=
  ⟨by decide,
    c7_resolveRedirect_selfEncoding [0, 0, 5, 0, 0, 0, 0, 9, 0, 0, 0, 4, 0, 0, 0, 0]
      (Title.mk "s" false 5 0 9 4 0 none)
      (by decide) (by decide) (by decide) (by decide) (by decide)⟩

/-- C3 counterexample: on the spec's concrete metadata text the patterns
of `readMetadataFile` do not match — each pattern requires the key to be
preceded by a newline, and `language` sits at the very start of the
text — so the parse fails instead of setting `language = "en"`,
`date = "2014-06-01"` and `normalizedTitles = false`. -/
theorem c3_metadata_counterexample :
    readMetadataFile ("language = en\ndate = 2014-06-01\nnormalized_titles = 0\n").data
      = none := by
  decide

/-- C3 amended: a metadata key is only recognized when preceded by a
newline.  On the text with a leading newline the parse sets
`language = "en"`, `date = "2014-06-01"` and `normalizedTitles = false`;
and in general, whenever the parse succeeds, `normalizedTitles` is
`false` exactly when the (newline-preceded) `normalized_titles` key is
present with value `"0"` — any other value, or absence of the key,
yields `true`. -/
theorem c3_metadata_amended :
    readMetadataFile ("\nlanguage = en\ndate = 2014-06-01\nnormalized_titles = 0\n").data
        = some ⟨"en".data, "2014-06-01".data, false⟩ ∧
      ∀ (s : List Char) (m : Metadata), readMetadataFile s = some m →
        (m.normalizedTitles = false ↔
          findKey s ("normalized_titles".data) = some ("0".data)) := by
  constructor
  · decide
  · intro s m hm
    unfold readMetadataFile at hm
    cases hlang : findKey s "language".data with
    | none => rw [hlang] at hm; exact absurd hm (by simp)
    | some lang =>
      rw [hlang] at hm
      cases hdate : findKey s "date".data with
      | none => rw [hdate] at hm; exact absurd hm (by simp)
      | some date =>
        rw [hdate] at hm
        cases hnt : findKey s "normalized_titles".data with
        | none =>
          rw [hnt] at hm
          simp only [Option.some.injEq] at hm
          subst hm
          simp
        | some tok =>
          rw [hnt] at hm
          simp only [Option.some.injEq] at hm
          subst hm
          by_cases htok : tok = "0".data
          · simp [htok]
          · simp [htok]

/-- Witness for C3's amended statement, instantiating its general clause
at the successfully parsed concrete metadata text. -/
theorem c3_metadata_amended_witness :
    readMetadataFile ("\nlanguage = en\ndate = 2014-06-01\nnormalized_titles = 0\n").data
        = some ⟨"en".data, "2014-06-01".data, false⟩ ∧
      ((Metadata.mk "en".data "2014-06-01".data false).normalizedTitles = false ↔
        findKey ("\nlanguage = en\ndate = 2014-06-01\nnormalized_titles = 0\n").data
            ("normalized_titles".data)
          = some ("0".data)) :=
  ⟨c3_metadata_amended.1,
    c3_metadata_amended.2 ("\nlanguage = en\ndate = 2014-06-01\nnormalized_titles = 0\n").data
      (Metadata.mk "en".data "2014-06-01".data false) c3_metadata_amended.1⟩

theorem getTitleByNameLoop_eq (normalize : String → String) (nq q : String)
    (l : List Title) :
    getTitleByNameLoop normalize nq q l
      = (l.takeWhile (fun t => normalize t.name == nq)).find? (fun t => t.name == q) := by
  induction l with
  | nil => rfl
  | cons t rest ih =>
    by_cases h : normalize t.name = nq
    · by_cases hq : t.name = q
      · subst hq
        simp [getTitleByNameLoop, h, List.takeWhile_cons, List.find?]
      · simp [getTitleByNameLoop, h, hq, List.takeWhile_cons, List.find?, ih]
    · simp [getTitleByNameLoop, h, List.takeWhile_cons]

/-- C2: `getTitleByName(name)` seeks to the prefix offset of the
normalized name and scans the consecutive records from there: it returns
exactly the first record, among those whose normalized on-disk name
still equals the normalized query, whose raw name equals the query; and
when no record with the raw query name exists at all (e.g. the name is
absent from the index), it returns null. -/
theorem c2_getTitleByName_spec (normalize : String → String) (titles : List Title)
    (q : String) :
    getTitleByName normalize titles q
        = ((titles.drop (findPrefixOffset normalize titles q)).takeWhile
            (fun t => normalize t.name == normalize q)).find? (fun t => t.name == q) ∧
      ((∀ t ∈ titles, t.name ≠ q) → getTitleByName normalize titles q = none) := by
  have h1 := getTitleByNameLoop_eq normalize (normalize q) q
    (titles.drop (findPrefixOffset normalize titles q))
  refine ⟨h1, ?_⟩
  intro habs
  unfold getTitleByName
  rw [h1, List.find?_eq_none]
  intro x hx
  have hx1 : x ∈ titles.drop (findPrefixOffset normalize titles q) :=
    (List.takeWhile_sublist _).mem hx
  have hx2 : x ∈ titles := List.drop_subset _ titles hx1
  simp [habs x hx2]

/-- Witness for C2 at the spec's absent-lookup scenario: the sorted
index `["apple", "banana", "cherry"]` queried for `"blueberry"` yields
null. -/
theorem c2_getTitleByName_spec_witness :
    (∀ t ∈ [Title.mk "apple" false 0 0 0 0 0 none, Title.mk "banana" false 0 0 0 0 0 none,
        Title.mk "cherry" false 0 0 0 0 0 none], t.name ≠ "blueberry") ∧
      getTitleByName id
          [Title.mk "apple" false 0 0 0 0 0 none, Title.mk "banana" false 0 0 0 0 0 none,
            Title.mk "cherry" false 0 0 0 0 0 none] "blueberry"
        = none :=
  ⟨by decide,
    (c2_getTitleByName_spec id
        [Title.mk "apple" false 0 0 0 0 0 none, Title.mk "banana" false 0 0 0 0 0 none,
          Title.mk "cherry" false 0 0 0 0 0 none] "blueberry").2 (by decide)⟩

theorem getTitlesInCoordsInt_counter (target : Rect) (maxT : ℤ) (t : QTree) :
    ∀ (thisR : Rect) (found : List TitlePos) (c : ℕ),
      (getTitlesInCoordsInt target maxT t thisR found c).2 = c - 1 := by
  induction t with
  | leaf entries =>
    intro thisR found c
    simp only [getTitlesInCoordsInt]
    split <;> rfl
  | inner ct tsw tse tnw tne ihsw ihse ihnw ihne =>
    intro thisR found c
    simp only [getTitlesInCoordsInt]
    split
    · rfl
    · split <;> split <;> split <;> split <;>
        simp only [ihsw, ihse, ihnw, ihne, Nat.add_sub_cancel]

theorem mem_leafFold (target : Rect) (maxT : ℤ) (entries : List (Point × ℕ)) :
    ∀ (acc : List TitlePos) (e : TitlePos),
      e ∈ entries.foldl (leafStep target maxT) acc →
      e ∈ acc ∨ target.containsPoint e.geolocation = true := by
  induction entries with
  | nil => intro acc e h; exact Or.inl h
  | cons p rest ih =>
    intro acc e h
    rcases ih _ e h with h2 | h2
    · unfold leafStep at h2
      by_cases hc : target.containsPoint p.1 = true
      · rw [if_pos hc] at h2
        by_cases hroom : maxT ≥ 0 ∧ ((acc.length : ℤ) < maxT)
        · rw [if_pos hroom] at h2
          rcases List.mem_append.1 h2 with h3 | h3
          · exact Or.inl h3
          · right
            have he : e = ⟨p.2, p.1⟩ := by simpa using h3
            rw [he]
            exact hc
        · rw [if_neg hroom] at h2
          exact Or.inl h2
      · rw [if_neg hc] at h2
        exact Or.inl h2
    · exact Or.inr h2

theorem mem_getTitlesInCoordsInt (target : Rect) (maxT : ℤ) (t : QTree) :
    ∀ (thisR : Rect) (found : List TitlePos) (c : ℕ) (e : TitlePos),
      e ∈ (getTitlesInCoordsInt target maxT t thisR found c).1 →
      e ∈ found ∨ target.containsPoint e.geolocation = true := by
  induction t with
  | leaf entries =>
    intro thisR found c e h
    simp only [getTitlesInCoordsInt] at h
    split at h
    · exact Or.inl h
    · exact mem_leafFold target maxT entries found e h
  | inner ct tsw tse tnw tne ihsw ihse ihnw ihne =>
    intro thisR found c e h
    simp only [getTitlesInCoordsInt] at h
    split at h
    · exact Or.inl h
    · split at h <;> split at h <;> split at h <;> split at h <;>
        (repeat
          first
          | (exact Or.inl h)
          | (exact Or.inr h)
          | (rcases ihsw _ _ _ _ h with h | h)
          | (rcases ihse _ _ _ _ h with h | h)
          | (rcases ihnw _ _ _ _ h with h | h)
          | (rcases ihne _ _ _ _ h with h | h))

theorem foldFiles_counter (target : Rect) (maxT : ℤ) :
    ∀ (files : List QTree) (s : List TitlePos × ℕ),
      (files.foldl
          (fun s t => getTitlesInCoordsInt target maxT t GLOBE_RECTANGLE s.1 s.2) s).2
        = s.2 - files.length := by
  intro files
  induction files with
  | nil => intro s; simp
  | cons t rest ih =>
    intro s
    rw [List.foldl_cons, ih, getTitlesInCoordsInt_counter]
    simp only [List.length_cons]
    omega

theorem mem_foldFiles (target : Rect) (maxT : ℤ) :
    ∀ (files : List QTree) (s : List TitlePos × ℕ) (e : TitlePos),
      e ∈ (files.foldl
          (fun s t => getTitlesInCoordsInt target maxT t GLOBE_RECTANGLE s.1 s.2) s).1 →
      e ∈ s.1 ∨ target.containsPoint e.geolocation = true := by
  intro files
  induction files with
  | nil => intro s e h; exact Or.inl h
  | cons t rest ih =>
    intro s e h
    rcases ih _ e h with h2 | h2
    · exact mem_getTitlesInCoordsInt target maxT t _ _ _ _ h2
    · exact Or.inr h2

theorem mem_insertByDist (c : Point) (e : TitlePos) :
    ∀ (l : List TitlePos) (x : TitlePos), x ∈ insertByDist c e l ↔ x = e ∨ x ∈ l := by
  intro l
  induction l with
  | nil => intro x; simp [insertByDist]
  | cons f rest ih =>
    intro x
    unfold insertByDist
    split
    · simp
    · simp only [List.mem_cons, ih]
      tauto

theorem pairwise_insertByDist (c : Point) (e : TitlePos) :
    ∀ (l : List TitlePos),
      List.Pairwise (fun a b => distance c a.geolocation ≤ distance c b.geolocation) l →
      List.Pairwise (fun a b => distance c a.geolocation ≤ distance c b.geolocation)
        (insertByDist c e l) := by
  intro l
  induction l with
  | nil => intro _; simp [insertByDist]
  | cons f rest ih =>
    intro h
    rw [List.pairwise_cons] at h
    unfold insertByDist
    split
    · rename_i hle
      rw [List.pairwise_cons]
      refine ⟨?_, List.pairwise_cons.2 h⟩
      intro x hx
      rcases List.mem_cons.1 hx with hx | hx
      · rw [hx]; exact hle
      · exact le_trans hle (h.1 x hx)
    · rename_i hgt
      rw [List.pairwise_cons]
      refine ⟨?_, ih h.2⟩
      intro x hx
      rcases (mem_insertByDist c e rest x).1 hx with hx | hx
      · rw [hx]; exact le_of_not_le hgt
      · exact h.1 x hx

theorem pairwise_sortByDistance (c : Point) (l : List TitlePos) :
    List.Pairwise (fun a b => distance c a.geolocation ≤ distance c b.geolocation)
      (sortByDistance c l) := by
  induction l with
  | nil => simp [sortByDistance]
  | cons x xs ih => exact pairwise_insertByDist c x _ ih

theorem mem_sortByDistance (c : Point) :
    ∀ (l : List TitlePos) (x : TitlePos), x ∈ sortByDistance c l ↔ x ∈ l := by
  intro l
  induction l with
  | nil => intro x; simp [sortByDistance]
  | cons f rest ih =>
    intro x
    show x ∈ insertByDist c f (sortByDistance c rest) ↔ _
    rw [mem_insertByDist, ih]
    simp

theorem center_normalized (r : Rect) : r.normalized.center = r.center := by
  unfold Rect.normalized Rect.center
  by_cases hw : r.w < 0 <;> by_cases hh : r.h < 0 <;>
    simp only [hw, hh, if_pos, if_neg, if_true, if_false, Point.mk.injEq] <;>
    constructor <;> ring_nf

/-- C5: every title list delivered by `getTitlesInCoords(R, n)` is
sorted ascending by planar distance from `R.center()` (here the
order-equivalent squared distance), and every delivered title's
geolocation satisfies `containsPoint` of the normalized `R`. -/
theorem c5_titlesInCoords_sorted_contained (files : List QTree) (R : Rect) (maxT : ℤ)
    (res : List TitlePos) (h : (getTitlesInCoords 0 files R maxT).1 = some res) :
    List.Pairwise
        (fun a b => distance R.center a.geolocation ≤ distance R.center b.geolocation)
        res ∧
      ∀ e ∈ res, R.normalized.containsPoint e.geolocation = true := by
  unfold getTitlesInCoords at h
  rw [if_neg (lt_irrefl 0)] at h
  by_cases hn : files.length = 0
  · rw [if_pos hn] at h
    exact absurd h (by simp)
  · rw [if_neg hn] at h
    simp only [Option.some.injEq] at h
    subst h
    constructor
    · have hp := pairwise_sortByDistance R.normalized.center
        (files.foldl
          (fun s t => getTitlesInCoordsInt R.normalized maxT t GLOBE_RECTANGLE s.1 s.2)
          ([], files.length)).1
      exact hp.imp (fun hab => by rwa [center_normalized] at hab)
    · intro e he
      rw [mem_sortByDistance] at he
      rcases mem_foldFiles R.normalized maxT files _ e he with h2 | h2
      · exact absurd h2 (by simp)
      · exact h2

/-- C9: at most one spatial search is in flight at a time — a
`getTitlesInCoords` call that finds the pending-descent counter nonzero
starts no descent, shows the user-visible retry message and resets the
counter to 0; and a search that runs to completion always returns the
counter to 0. -/
theorem c9_searchCounter (c0 : ℕ) (files : List QTree) (R : Rect) (maxT : ℤ) :
    (0 < c0 → getTitlesInCoords c0 files R maxT = (none, 0, true)) ∧
      (getTitlesInCoords 0 files R maxT).2.1 = 0 := by
  constructor
  · intro h
    unfold getTitlesInCoords
    rw [if_pos h]
  · unfold getTitlesInCoords
    rw [if_neg (lt_irrefl 0)]
    have hc := foldFiles_counter R.normalized maxT files ([], files.length)
    by_cases hn : files.length = 0
    · rw [if_pos hn]
      simpa [hn] using hc
    · rw [if_neg hn]
      simpa using hc

/-- Witness for C9: a call with the counter at 1 is rejected with the
retry alert and counter reset, and a completed search (here over an
archive with no coordinate file) ends with the counter at 0. -/
theorem c9_searchCounter_witness :
    getTitlesInCoords 1 [] ⟨0, 0, 1, 1⟩ 5 = (none, 0, true) ∧
      (getTitlesInCoords 0 [] ⟨0, 0, 1, 1⟩ 5).2.1 = 0 :=
  ⟨(c9_searchCounter 1 [] ⟨0, 0, 1, 1⟩ 5).1 (by decide),
    (c9_searchCounter 0 [] ⟨0, 0, 1, 1⟩ 5).2⟩

/-- C10: on an archive whose coordinate-file list is empty, with the
pending counter at 0, `getTitlesInCoords` starts no descent, leaves the
counter at 0, shows no alert, and never invokes the completion callback:
the caller receives no result, not even an empty list. -/
theorem c10_emptyCoordinateFiles (R : Rect) (maxT : ℤ) :
    getTitlesInCoords 0 [] R maxT = (none, 0, false) := rfl

section RatEval

attribute [local semireducible] Rat.add Rat.mul Rat.sub Rat.inv

/-- C1: evaluation of the spatial search at `maxTitles = -1` on a
single-leaf coordinate file with one entry inside the query rectangle.
The entry lies in the rectangle (second conjunct) and is collected when
`maxTitles = 10` (third conjunct), yet with `maxTitles = -1` the search
delivers the empty list (first conjunct): the leaf push guard
`maxTitles >= 0 && length < maxTitles` is never satisfied for a negative
`maxTitles`, so `-1` collects nothing instead of being unbounded, even
though the early-stop guard `maxTitles >= 0 && length >= maxTitles`
special-cases negative values as "never stop". -/
theorem c1_maxTitlesNegative_collectsNothing :
    getTitlesInCoords 0 [QTree.leaf [(⟨2, 48⟩, 100)]] ⟨0, 45, 10, 10⟩ (-1)
        = (some [], 0, false) ∧
      Rect.containsPoint (Rect.normalized ⟨0, 45, 10, 10⟩) ⟨2, 48⟩ = true ∧
      (getTitlesInCoords 0 [QTree.leaf [(⟨2, 48⟩, 100)]] ⟨0, 45, 10, 10⟩ 10).1
        = some [⟨100, ⟨2, 48⟩⟩] := by
  refine ⟨by decide, by decide, by decide⟩

/-- Witness for C5 at the spec's quadtree-leaf scenario: one leaf with
two entries, one inside the rectangle and one outside; the delivered
list holds exactly the inside entry, is (trivially) distance-sorted and
contained. -/
theorem c5_titlesInCoords_sorted_contained_witness :
    (getTitlesInCoords 0 [QTree.leaf [(⟨2, 48⟩, 100), (⟨-74, 40⟩, 200)]]
          ⟨0, 45, 10, 10⟩ 10).1 = some [⟨100, ⟨2, 48⟩⟩] ∧
      (List.Pairwise
          (fun a b => distance (Rect.center ⟨0, 45, 10, 10⟩) a.geolocation ≤
            distance (Rect.center ⟨0, 45, 10, 10⟩) b.geolocation)
          [(⟨100, ⟨2, 48⟩⟩ : TitlePos)] ∧
        ∀ e ∈ [(⟨100, ⟨2, 48⟩⟩ : TitlePos)],
          (Rect.normalized ⟨0, 45, 10, 10⟩).containsPoint e.geolocation = true) :=
  ⟨by decide,
    c5_titlesInCoords_sorted_contained [QTree.leaf [(⟨2, 48⟩, 100), (⟨-74, 40⟩, 200)]]
      ⟨0, 45, 10, 10⟩ 10 [⟨100, ⟨2, 48⟩⟩] (by decide)⟩

end RatEval

theorem listLex_self (a : List ℕ) : listLex a a = Ordering.eq := by
  induction a with
  | nil => rfl
  | cons x xs ih => simp [listLex, lt_irrefl, ih]

theorem listLex_eq : ∀ (a b : List ℕ), listLex a b = Ordering.eq → a = b := by
  intro a
  induction a with
  | nil =>
    intro b h
    cases b with
    | nil => rfl
    | cons y ys => simp [listLex] at h
  | cons x xs ih =>
    intro b h
    cases b with
    | nil => simp [listLex] at h
    | cons y ys =>
      by_cases h1 : x < y
      · simp [listLex, h1] at h
      · by_cases h2 : y < x
        · simp [listLex, h1, h2] at h
        · have hxy : x = y := by omega
          simp only [listLex, if_neg h1, if_neg h2] at h
          rw [hxy, ih ys h]

theorem listLex_gt_iff : ∀ (a b : List ℕ),
    listLex a b = Ordering.gt ↔ listLex b a = Ordering.lt := by
  intro a
  induction a with
  | nil =>
    intro b
    cases b with
    | nil => simp [listLex]
    | cons y ys => simp [listLex]
  | cons x xs ih =>
    intro b
    cases b with
    | nil => simp [listLex]
    | cons y ys =>
      by_cases h1 : x < y
      · have h2 : ¬ y < x := by omega
        simp [listLex, h1, h2]
      · by_cases h2 : y < x
        · simp [listLex, h1, h2]
        · simp only [listLex, if_neg h1, if_neg h2]
          exact ih ys

theorem listLex_trans : ∀ (a b c : List ℕ),
    listLex a b = Ordering.lt → listLex b c = Ordering.lt →
    listLex a c = Ordering.lt := by
  intro a
  induction a with
  | nil =>
    intro b c h1 h2
    cases c with
    | nil =>
      cases b with
      | nil => simp [listLex] at h1
      | cons y ys => simp [listLex] at h2
    | cons z zs => rfl
  | cons x xs ih =>
    intro b c h1 h2
    cases b with
    | nil => simp [listLex] at h1
    | cons y ys =>
      cases c with
      | nil => simp [listLex] at h2
      | cons z zs =>
        by_cases hxy : x < y
        · by_cases hyz : y < z
          · have : x < z := by omega
            simp [listLex, this]
          · by_cases hzy : z < y
            · simp [listLex, hyz, hzy] at h2
            · have : x < z := by omega
              simp [listLex, this]
        · by_cases hyx : y < x
          · simp [listLex, hxy, hyx] at h1
          · simp only [listLex, if_neg hxy, if_neg hyx] at h1
            by_cases hyz : y < z
            · have : x < z := by omega
              simp [listLex, this]
            · by_cases hzy : z < y
              · simp [listLex, hyz, hzy] at h2
              · simp only [listLex, if_neg hyz, if_neg hzy] at h2
                have hxz : ¬ x < z := by omega
                have hzx : ¬ z < x := by omega
                simp only [listLex, if_neg hxz, if_neg hzx]
                exact ih ys zs h1 h2

theorem findMathDataPosition_eq_none (recs : List MathRec) (q : List ℕ)
    (hq : ∀ r ∈ recs, r.hash ≠ q) :
    ∀ (n lo hi : ℕ), hi - lo ≤ n → hi ≤ recs.length →
      findMathDataPosition recs q lo hi = none := by
  intro n
  induction n with
  | zero =>
    intro lo hi h hle
    rw [findMathDataPosition, dif_pos (by omega)]
  | succ n ih =>
    intro lo hi h hle
    rw [findMathDataPosition]
    by_cases hl : hi ≤ lo
    · rw [dif_pos hl]
    · rw [dif_neg hl]
      have hmid : (lo + hi) / 2 < recs.length := by omega
      dsimp only
      rw [List.getD_eq_getElem recs ⟨[], 0, 0⟩ hmid]
      split
      · rename_i heq
        exact absurd (listLex_eq _ _ heq).symm (hq _ (List.getElem_mem hmid))
      · exact ih lo ((lo + hi) / 2) (by omega) (by omega)
      · exact ih ((lo + hi) / 2 + 1) hi (by omega) hle

theorem findMathDataPosition_eq_some (recs : List MathRec) (q : List ℕ)
    (hs : List.Pairwise (fun a b => listLex a.hash b.hash = Ordering.lt) recs) :
    ∀ (n lo hi : ℕ), hi - lo ≤ n → hi ≤ recs.length →
      ∀ (i : ℕ) (hilen : i < recs.length), lo ≤ i → i < hi →
        (recs.get ⟨i, hilen⟩).hash = q →
        findMathDataPosition recs q lo hi
          = some ((recs.get ⟨i, hilen⟩).pos, (recs.get ⟨i, hilen⟩).len) := by
  have hget := List.pairwise_iff_get.1 hs
  intro n
  induction n with
  | zero =>
    intro lo hi h _ i hilen hlo hhi _
    omega
  | succ n ih =>
    intro lo hi h hle i hilen hlo hhi hhash
    rw [findMathDataPosition, dif_neg (by omega : ¬ hi ≤ lo)]
    have hmid : (lo + hi) / 2 < recs.length := by omega
    dsimp only
    rw [List.getD_eq_getElem recs ⟨[], 0, 0⟩ hmid]
    split
    · rename_i heq
      have hqe : q = (recs.get ⟨(lo + hi) / 2, hmid⟩).hash := listLex_eq _ _ heq
      have him : i = (lo + hi) / 2 := by
        by_contra hne
        rcases Nat.lt_or_ge i ((lo + hi) / 2) with hlt | hge
        · have h2 := hget ⟨i, hilen⟩ ⟨(lo + hi) / 2, hmid⟩ (Fin.mk_lt_mk.2 hlt)
          rw [hhash, ← hqe, listLex_self] at h2
          exact absurd h2 (by decide)
        · have hlt2 : (lo + hi) / 2 < i := by omega
          have h2 := hget ⟨(lo + hi) / 2, hmid⟩ ⟨i, hilen⟩ (Fin.mk_lt_mk.2 hlt2)
          rw [hhash, ← hqe, listLex_self] at h2
          exact absurd h2 (by decide)
      subst him
      rfl
    · rename_i hlt
      have hlt2 : listLex q (recs.get ⟨(lo + hi) / 2, hmid⟩).hash = Ordering.lt := hlt
      have hi_lt : i < (lo + hi) / 2 := by
        by_contra hge
        push_neg at hge
        rcases Nat.eq_or_lt_of_le hge with heq2 | hlt3
        · have hh2 : (recs.get ⟨(lo + hi) / 2, hmid⟩).hash = q := by
            subst heq2
            exact hhash
          rw [hh2, listLex_self] at hlt2
          exact absurd hlt2 (by decide)
        · have h2 := hget ⟨(lo + hi) / 2, hmid⟩ ⟨i, hilen⟩ (Fin.mk_lt_mk.2 hlt3)
          rw [hhash] at h2
          have h3 := listLex_trans _ _ _ hlt2 h2
          rw [listLex_self] at h3
          exact absurd h3 (by decide)
      exact ih lo ((lo + hi) / 2) (by omega) (by omega) i hilen hlo hi_lt hhash
    · rename_i hgt
      have hgt2 : listLex q (recs.get ⟨(lo + hi) / 2, hmid⟩).hash = Ordering.gt := hgt
      have hmid_lt : (lo + hi) / 2 < i := by
        by_contra hge
        push_neg at hge
        rcases Nat.eq_or_lt_of_le hge with heq2 | hlt3
        · have hh2 : (recs.get ⟨(lo + hi) / 2, hmid⟩).hash = q := by
            subst heq2
            exact hhash
          rw [hh2, listLex_self] at hgt2
          exact absurd hgt2 (by decide)
        · have h2 := hget ⟨i, hilen⟩ ⟨(lo + hi) / 2, hmid⟩ (Fin.mk_lt_mk.2 hlt3)
          rw [hhash] at h2
          rw [h2] at hgt2
          exact absurd hgt2 (by decide)
      exact ih ((lo + hi) / 2 + 1) hi (by omega) hle i hilen hmid_lt hhi hhash

/-- C8: `loadMathImage` binary-searches the 24-byte records with
`lo = 0` and `hi` the record count.  On a sorted index, when a record
with the queried 16-byte hash exists, it returns exactly the bytes
`mathData[pos .. pos + len)` of that entry — of exactly the recorded
length `len` when the data file is long enough — and when no record
matches, the search terminates at `lo ≥ hi` and the operation reports
not-found. -/
theorem c8_loadMathImage_spec (recs : List MathRec) (d : List ℕ) (q : List ℕ) :
    (List.Pairwise (fun a b => listLex a.hash b.hash = Ordering.lt) recs →
      ∀ (i : ℕ) (hi : i < recs.length), (recs.get ⟨i, hi⟩).hash = q →
        loadMathImage recs d q
            = some ((d.drop (recs.get ⟨i, hi⟩).pos).take (recs.get ⟨i, hi⟩).len) ∧
          ((recs.get ⟨i, hi⟩).pos + (recs.get ⟨i, hi⟩).len ≤ d.length →
            ((d.drop (recs.get ⟨i, hi⟩).pos).take (recs.get ⟨i, hi⟩).len).length
              = (recs.get ⟨i, hi⟩).len)) ∧
    ((∀ r ∈ recs, r.hash ≠ q) → loadMathImage recs d q = none) := by
  constructor
  · intro hs i hi hhash
    have hfind := findMathDataPosition_eq_some recs q hs recs.length 0 recs.length
      (by omega) le_rfl i hi (Nat.zero_le i) hi hhash
    constructor
    · unfold loadMathImage
      rw [hfind]
      rfl
    · intro hlen
      rw [List.length_take, List.length_drop]
      omega
  · intro hq
    unfold loadMathImage
    rw [findMathDataPosition_eq_none recs q hq recs.length 0 recs.length (by omega) le_rfl]
    rfl

/-- Witness for C8 at the spec's math-lookup scenario: a two-record
index over the data bytes of `"HELLOBYE"`; the query for the second hash
returns exactly the three bytes of `"BYE"`, and a query matching no
record returns not-found. -/
theorem c8_loadMathImage_spec_witness :
    List.Pairwise (fun a b => listLex a.hash b.hash = Ordering.lt)
        [MathRec.mk [0, 1] 0 5, MathRec.mk [0, 2] 5 3] ∧
      loadMathImage [MathRec.mk [0, 1] 0 5, MathRec.mk [0, 2] 5 3]
          [72, 69, 76, 76, 79, 66, 89, 69] [0, 2]
        = some ((([72, 69, 76, 76, 79, 66, 89, 69] : List ℕ).drop
            ((([MathRec.mk [0, 1] 0 5, MathRec.mk [0, 2] 5 3].get ⟨1, by decide⟩)).pos)).take
            (([MathRec.mk [0, 1] 0 5, MathRec.mk [0, 2] 5 3].get ⟨1, by decide⟩).len)) ∧
      (∀ r ∈ [MathRec.mk [0, 1] 0 5, MathRec.mk [0, 2] 5 3], r.hash ≠ [9, 9]) ∧
      loadMathImage [MathRec.mk [0, 1] 0 5, MathRec.mk [0, 2] 5 3]
          [72, 69, 76, 76, 79, 66, 89, 69] [9, 9] = none :=
  ⟨by decide,
    ((c8_loadMathImage_spec [MathRec.mk [0, 1] 0 5, MathRec.mk [0, 2] 5 3]
        [72, 69, 76, 76, 79, 66, 89, 69] [0, 2]).1 (by decide) 1 (by decide) (by decide)).1,
    by decide,
    (c8_loadMathImage_spec [MathRec.mk [0, 1] 0 5, MathRec.mk [0, 2] 5 3]
        [72, 69, 76, 76, 79, 66, 89, 69] [9, 9]).2 (by decide)⟩

end Evopedia
